import Mathlib

/-!
Verification development for the text-to-column-webui repository.

The repository's core (src/text_to_column/parser.py, src/parse_to_csv.py,
src/webapp/main.py) is embedded shallowly below.  Python strings are modelled
as `List Char` (a Python `str` is a sequence of code points); Python dicts
that the code iterates in insertion order are modelled as association lists
`List (PyStr × α)`; Python exceptions are modelled as `Except PyError`, where
`PyError` records the exception class name and message.  `str.lower()` is
modelled with `Char.toLower`, which performs the ASCII case mapping; every
string the repository case-folds (command keys, filename stems) is treated by
the code as ASCII.
-/

namespace TextToColumn

/-- A Python string: a sequence of code points. -/
abbrev PyStr := List Char

/-- Shorthand turning a Lean string literal into the modelled Python string. -/
def pyS (s : String) : PyStr := s.data

/-- The characters Python's `str.strip()` / `str.split()` treat as whitespace
(space, tab, newline, carriage return, vertical tab, form feed). -/
def isPyWS (c : Char) : Bool :=
  c = ' ' || c = '\t' || c = '\n' || c = '\r' || c = '\x0b' || c = '\x0c'

/-- `str.lower()`, character-wise (ASCII case mapping, see header comment). -/
def pyLower (s : PyStr) : PyStr := s.map Char.toLower

/-- `str.strip()`: remove leading and trailing whitespace. -/
def pyStrip (s : PyStr) : PyStr :=
  ((s.dropWhile isPyWS).reverse.dropWhile isPyWS).reverse

/-- `str.replace(" ", "_")`: each space character (and only spaces) becomes an
underscore; the single-character pattern makes this a character-wise map. -/
def spaceToUnderscore (s : PyStr) : PyStr :=
  s.map (fun c => if c = ' ' then '_' else c)

/-- The filename-safe form of a catalog command key, as computed inside
`build_command_prefixes`: `k.strip().lower().replace(" ", "_")`. -/
def commandPfx (k : PyStr) : PyStr := spaceToUnderscore (pyLower (pyStrip k))

/-- `build_command_prefixes` (src/text_to_column/parser.py:69-81, duplicated in
src/parse_to_csv.py:49-61): pair every catalog key with its filename-safe
form, then stable-sort by descending length (Python's `list.sort` with
`key=lambda x: len(x[0]), reverse=True` is a stable descending sort, which is
exactly what insertion sort with this relation computes). -/
def build_command_prefixes (platform_map : List (PyStr × PyStr)) : List (PyStr × PyStr) :=
  List.insertionSort (fun a b : PyStr × PyStr => b.1.length ≤ a.1.length)
    (platform_map.map (fun kv => (commandPfx kv.1, kv.1)))

/-- `split_command_and_hostname` (src/text_to_column/parser.py:84-97): scan the
pre-sorted list for the first filename-safe form `q` such that the lower-cased
stem starts with `q ++ "_"`; the hostname is the original-case remainder. -/
def split_command_and_hostname (filename_stem : PyStr) (cmdPfxs : List (PyStr × PyStr)) :
    Option (PyStr × PyStr × PyStr) :=
  (cmdPfxs.find? (fun pk => (pk.1 ++ [ '_' ]).isPrefixOf (pyLower filename_stem))).map
    (fun pk => (pk.1, filename_stem.drop (pk.1.length + 1), pk.2))

/-- Single accumulator pass behind `splitWS`; the accumulator holds the
current word reversed. -/
def splitWSAux : PyStr → PyStr → List PyStr
  | [], acc => if acc = [] then [] else [acc.reverse]
  | c :: cs, acc =>
    if isPyWS c then
      if acc = [] then splitWSAux cs [] else acc.reverse :: splitWSAux cs []
    else splitWSAux cs (c :: acc)

/-- Python `str.split()` with no argument: split on runs of whitespace,
discarding leading/trailing whitespace and never producing empty parts. -/
def splitWS (s : PyStr) : List PyStr := splitWSAux s []

/-- `command_to_slug` (src/text_to_column/parser.py:292-299):
`"_".join(p for p in command.strip().lower().split() if p)`; `split()` never
yields empty parts, so the filter is the identity. -/
def command_to_slug (command : PyStr) : PyStr :=
  List.intercalate (pyS "_") (splitWS (pyLower (pyStrip command)))

/-- Single pass behind `pySplitOn`: the accumulator holds the current part
reversed, and `skip` counts separator characters still to be consumed after a
match (scanning resumes after a matched separator, making matches
non-overlapping and left-to-right, as in CPython). -/
def pySplitOnAux (sep : PyStr) : PyStr → PyStr → Nat → List PyStr
  | [], acc, _ => [acc.reverse]
  | _ :: cs, acc, skip + 1 => pySplitOnAux sep cs acc skip
  | c :: cs, acc, 0 =>
    if 0 < sep.length ∧ sep.isPrefixOf (c :: cs) then
      acc.reverse :: pySplitOnAux sep cs [] (sep.length - 1)
    else pySplitOnAux sep cs (c :: acc) 0

/-- Python `str.split(sep)` for a non-empty separator: non-overlapping,
left-to-right splitting; always returns at least one part. -/
def pySplitOn (sep s : PyStr) : List PyStr := pySplitOnAux sep s [] 0

/-- Python `sub in s` (substring containment). -/
def containsSub (sub s : PyStr) : Bool :=
  s.tails.any (fun t => sub.isPrefixOf t)

/-- `pathlib.Path(filename).stem` for a plain file name (the callers pass an
uploaded file's bare name): drop the last extension; CPython keeps the whole
name when the last dot is at position 0 or is the final character. -/
def pyPathStem (s : PyStr) : PyStr :=
  match ((List.range s.length).filter (fun i => s.getD i ' ' = '.')).getLast? with
  | some i => if 0 < i ∧ i < s.length - 1 then s.take i else s
  | none => s

/-- `Path(filename).stem or filename` as used by the hostname helpers. -/
def stemOr (filename : PyStr) : PyStr :=
  if pyPathStem filename = [] then filename else pyPathStem filename

/-- `infer_hostname` (src/text_to_column/parser.py:275-289): last `"__"` part
when `"__"` occurs in the stem, else the last `"_"` token when the stem
splits, else the whole stem. -/
def infer_hostname (filename : PyStr) : PyStr :=
  let stem := stemOr filename
  if containsSub (pyS "__") stem then
    let last := (pySplitOn (pyS "__") stem).getLast?.getD []
    if last = [] then stem else last
  else
    let parts := pySplitOn (pyS "_") stem
    if 2 ≤ parts.length ∧ parts.getLast?.getD [] ≠ [] then parts.getLast?.getD [] else stem

/-- `infer_hostname_after_command` (src/text_to_column/parser.py:302-326):
when the lower-cased stem starts with the (non-empty) command slug, strip the
slug, strip all leading underscores from the remainder, and return it if
non-empty; otherwise fall back to `infer_hostname`.  The slug is already
lower-case, so `slug.lower()` in the source is the slug itself. -/
def infer_hostname_after_command (filename command : PyStr) : PyStr :=
  let stem := stemOr filename
  let slug := command_to_slug command
  if slug ≠ [] ∧ slug.isPrefixOf (pyLower stem) then
    let rest := (stem.drop slug.length).dropWhile (fun c => c = '_')
    if rest ≠ [] then rest else infer_hostname filename
  else infer_hostname filename

/-- Dict lookup (`d.get(k)` / `d[k]`); keys of a Python dict are unique, so
first-match lookup on the association list is exact. -/
def dictGet {α : Type} (d : List (PyStr × α)) (k : PyStr) : Option α :=
  (d.find? (fun kv => decide (kv.1 = k))).map Prod.snd

/-- Dict assignment `d[k] = v`: overwrite in place when the key is present
(keeping its position, as Python dicts do), otherwise append. -/
def dictInsert (d : List (PyStr × PyStr)) (k v : PyStr) : List (PyStr × PyStr) :=
  if (dictGet d k).isSome then
    d.map (fun kv => if kv.1 = k then (k, v) else kv)
  else d ++ [(k, v)]

/-- The row normalisation of `parse_with_template`
(src/text_to_column/parser.py:65) and `parse_text` (src/parse_to_csv.py:32):
`{headers[i].lower(): row[i] for i in range(len(headers))}`.  The source
indexes both lists at `i < len(headers)`; the engine returns rectangular
output (`len(row) = len(headers)`, hypothesised in the theorems), under which
that comprehension is exactly a fold over `headers.zip row`. -/
def recordOfRow (headers row : List PyStr) : List (PyStr × PyStr) :=
  (headers.zip row).foldl (fun d hv => dictInsert d (pyLower hv.1) hv.2) []

/-- The outcome of one template attempt as seen by `autodetect_command`:
the template file may be missing, the external engine may fail to compile the
template or parse the text (any `Exception`), or it returns headers and rows. -/
inductive EngineOutcome where
  | missing : EngineOutcome
  | failure : EngineOutcome
  | ok : List PyStr → List (List PyStr) → EngineOutcome

/-- `AutoDetectResult` (src/text_to_column/parser.py:15-20). -/
structure AutoDetectResult where
  command : PyStr
  template : PyStr
  rows : Nat
  cols : Nat
deriving DecidableEq, Repr

/-- A raised Python exception: class name and message. -/
structure PyError where
  cls : PyStr
  msg : PyStr
deriving DecidableEq, Repr

/-- Python tuple comparison `x < y` on `(rows, cols)` pairs: strict
lexicographic order (the source tests `candidate_pair > best_pair`, i.e.
`pairLt best_pair candidate_pair`). -/
def pairLt (x y : Nat × Nat) : Prop :=
  x.1 < y.1 ∨ (x.1 = y.1 ∧ x.2 < y.2)

instance (x y : Nat × Nat) : Decidable (pairLt x y) := by
  unfold pairLt; exact inferInstance

/-- The scan loop of `autodetect_command` (src/text_to_column/parser.py:236-264)
over the catalog in insertion order: `tried` is modelled as remaining fuel
(the source increments `tried` before the missing-file check, so missing
templates consume fuel too); missing files, engine failures and zero-row
results are skipped; a candidate replaces the incumbent only when its
`(rows, cols)` pair is strictly greater. -/
def autodetectLoop (engine : PyStr → EngineOutcome) :
    List (PyStr × PyStr) → Nat → Option AutoDetectResult → Option AutoDetectResult
  | [], _, best => best
  | _ :: _, 0, best => best
  | (command, tpl_name) :: rest, fuel + 1, best =>
    match engine tpl_name with
    | .missing => autodetectLoop engine rest fuel best
    | .failure => autodetectLoop engine rest fuel best
    | .ok headers rows =>
      if rows.length = 0 then autodetectLoop engine rest fuel best
      else
        let candidate : AutoDetectResult :=
          ⟨command, tpl_name, rows.length, headers.length⟩
        match best with
        | none => autodetectLoop engine rest fuel (some candidate)
        | some b =>
          autodetectLoop engine rest fuel
            (some (if pairLt (b.rows, b.cols) (candidate.rows, candidate.cols) then candidate else b))

/-- The incumbent update of one successful candidate, as in the loop body:
first candidate wins an empty incumbent; afterwards a candidate replaces the
incumbent only when its `(rows, cols)` pair is strictly greater. -/
def stepBest (best : Option AutoDetectResult) (candidate : AutoDetectResult) :
    Option AutoDetectResult :=
  match best with
  | none => some candidate
  | some b =>
    some (if pairLt (b.rows, b.cols) (candidate.rows, candidate.cols) then candidate else b)

/-- `aliases.get(platform, platform)`. -/
def resolvedPlatform (aliases : List (PyStr × PyStr)) (platform : PyStr) : PyStr :=
  (dictGet aliases platform).getD platform

/-- `mapping.get(resolved, {})`. -/
def platformMapOf (mapping : List (PyStr × List (PyStr × PyStr)))
    (aliases : List (PyStr × PyStr)) (platform : PyStr) : List (PyStr × PyStr) :=
  (dictGet mapping (resolvedPlatform aliases platform)).getD []

/-- The `KeyError` message of a missing/empty platform catalog
(src/text_to_column/parser.py:144 and 234). -/
def noPlatformMsg (resolved platform : PyStr) : PyStr :=
  pyS "No mapping for platform '" ++
    (resolved ++ (pyS "' (folder '" ++ (platform ++ pyS "')")))

/-- The `KeyError` message of an unknown command (src/text_to_column/parser.py:146). -/
def noCommandMsg (command resolved : PyStr) : PyStr :=
  pyS "No mapping for command '" ++
    (command ++ (pyS "' in platform '" ++ (resolved ++ pyS "'")))

/-- The `ValueError` message of a failed autodetection
(src/text_to_column/parser.py:267-270). -/
def noMatchMsg (resolved : PyStr) : PyStr :=
  pyS "Auto-detect could not find a template that produces rows for platform '" ++ resolved ++
    pyS "'. (Tip: ensure you're pasting full command output and correct platform.)"

/-- `autodetect_command` (src/text_to_column/parser.py:213-271) from the point
where its inputs are in memory: resolve the platform alias, fetch the catalog
(`mapping.get(resolved, {})`), fail with `KeyError` when it is empty, run the
scan loop, and fail with `ValueError` when no candidate survived. -/
def autodetect_command (mapping : List (PyStr × List (PyStr × PyStr)))
    (aliases : List (PyStr × PyStr)) (platform : PyStr)
    (engine : PyStr → EngineOutcome) (max_templates : Nat) :
    Except PyError AutoDetectResult :=
  let resolved := resolvedPlatform aliases platform
  let platform_map := platformMapOf mapping aliases platform
  if platform_map = [] then
    .error ⟨pyS "KeyError", noPlatformMsg resolved platform⟩
  else
    match autodetectLoop engine platform_map max_templates none with
    | some best => .ok best
    | none => .error ⟨pyS "ValueError", noMatchMsg resolved⟩

/-- The successful candidates of the scan, in attempt order: one entry per
catalog entry (within fuel) whose template exists, whose engine run succeeds
and which yields at least one row.  This is the specification-side view of
the loop; `autodetectLoop_eq_foldl` below ties it to the source loop. -/
def autodetectAttempts (engine : PyStr → EngineOutcome) :
    List (PyStr × PyStr) → Nat → List AutoDetectResult
  | [], _ => []
  | _ :: _, 0 => []
  | (command, tpl_name) :: rest, fuel + 1 =>
    match engine tpl_name with
    | .missing => autodetectAttempts engine rest fuel
    | .failure => autodetectAttempts engine rest fuel
    | .ok headers rows =>
      if rows.length = 0 then autodetectAttempts engine rest fuel
      else ⟨command, tpl_name, rows.length, headers.length⟩ :: autodetectAttempts engine rest fuel

/-- `resolve_template_name` (src/text_to_column/parser.py:134-147): resolve the
platform alias, fetch the catalog, raise `KeyError` when it is empty or
absent, raise `KeyError` when the command is not a key, else return the
template name. -/
def resolve_template_name (mapping : List (PyStr × List (PyStr × PyStr)))
    (platform command : PyStr) (aliases : List (PyStr × PyStr)) :
    Except PyError PyStr :=
  let resolved := resolvedPlatform aliases platform
  let platform_map := platformMapOf mapping aliases platform
  if platform_map = [] then
    .error ⟨pyS "KeyError", noPlatformMsg resolved platform⟩
  else
    match dictGet platform_map command with
    | none => .error ⟨pyS "KeyError", noCommandMsg command resolved⟩
    | some tpl => .ok tpl

/-- The repository's injected hostname column name. -/
def hostnameKey : PyStr := pyS "hostname"

/-- The column-discovery step of per-file aggregation (`write_csv`,
src/parse_to_csv.py:36-40, and the same loop inline in `parse_folder_to_csv`,
src/text_to_column/parser.py:408-412):
`if k != "hostname" and k not in cols: cols.append(k)`. -/
def discoverStep (cols : List PyStr) (k : PyStr) : List PyStr :=
  if k ≠ hostnameKey ∧ k ∉ cols then cols ++ [k] else cols

/-- `for r in rows: for k in r: ...` over the discovery step. -/
def discoverCols (rows : List (List (PyStr × PyStr))) : List PyStr :=
  rows.foldl (fun cols r => r.foldl (fun cols kv => discoverStep cols kv.1) cols) []

/-- The per-file CSV field names: `["hostname"] + cols`
(src/parse_to_csv.py:43, src/text_to_column/parser.py:418). -/
def writeCsvFieldnames (rows : List (List (PyStr × PyStr))) : List PyStr :=
  hostnameKey :: discoverCols rows

/-- `csv.DictWriter` cell for one field of one record: the record's value when
the key is present, the default `restval` (the empty string) when absent. -/
def csvCell (r : List (PyStr × PyStr)) (field : PyStr) : PyStr :=
  (dictGet r field).getD []

/-- First-seen deduplication with an already-seen accumulator; the
specification-side description of column discovery ("first-seen order across
all records with duplicates removed"). -/
def dedupKeep (seen : List PyStr) : List PyStr → List PyStr
  | [] => seen
  | k :: ks => if k ∈ seen then dedupKeep seen ks else dedupKeep (seen ++ [k]) ks

/-- Python `set.add`, on a set modelled as a duplicate-free list in some
insertion order (the order is irrelevant: the combined-mode output sorts). -/
def setAdd (s : List PyStr) (x : PyStr) : List PyStr :=
  if x ∈ s then s else s ++ [x]

/-- One file's contribution to a combined-mode group's header set
(src/webapp/main.py:244-247): add every header of the parse, then add
`"hostname"`. -/
def combinedAddFile (s : List PyStr) (fileHeaders : List PyStr) : List PyStr :=
  setAdd (fileHeaders.foldl setAdd s) hostnameKey

/-- The header set of a combined-mode group built from the header lists of its
contributing files, in contribution order. -/
def combinedHeadersOf (files : List (List PyStr)) : List PyStr :=
  files.foldl combinedAddFile []

/-- Python string comparison `a <= b`: lexicographic on code points (`Char`'s
order compares the code-point values). -/
def strLe : PyStr → PyStr → Bool
  | [], _ => true
  | _ :: _, [] => false
  | a :: s, b :: t =>
    if a < b then true
    else if b < a then false
    else strLe s t

/-- Python `sorted(xs)` on strings: a stable sort by `strLe` (insertion sort
computes exactly the stable sort for a total relation). -/
def sortStrings (l : List PyStr) : List PyStr :=
  List.insertionSort (fun a b => strLe a b = true) l

/-- The combined-mode CSV field names (src/webapp/main.py:270):
`["hostname"] + sorted(h for h in headers if h != "hostname")`. -/
def combinedFieldnames (headers : List PyStr) : List PyStr :=
  hostnameKey :: sortStrings (headers.filter (fun h => h ≠ hostnameKey))

/-- Helper for `runCollapsePfx`: `inWS` records whether the previous character
was part of a whitespace run already replaced by an underscore. -/
def runCollapseAux : PyStr → Bool → PyStr
  | [], _ => []
  | c :: cs, inWS =>
    if isPyWS c then
      if inWS then runCollapseAux cs true else '_' :: runCollapseAux cs true
    else c :: runCollapseAux cs false

/-- Modelled from the claim wording of C9, for comparison with the source:
"lower-cased, with every run of whitespace characters replaced by a single
underscore". -/
def runCollapsePfx (k : PyStr) : PyStr := runCollapseAux (pyLower k) false

/-- Modelled from the claim wording of C5, for comparison with the source:
hostname is the suffix of the stem after "the command's filename-safe slug
plus exactly one separator character"; fallback when the stem does not start
with the slug. -/
def claimHostnameOneSep (filename command : PyStr) : PyStr :=
  let stem := stemOr filename
  let slug := command_to_slug command
  if slug ≠ [] ∧ (slug ++ [ '_' ]).isPrefixOf (pyLower stem) then
    stem.drop (slug.length + 1)
  else infer_hostname filename

/-! ### Character and case-folding lemmas -/

theorem char_toNat_ofNat_valid {n : Nat} (h : n.isValidChar) : (Char.ofNat n).toNat = n := by
  unfold Char.ofNat
  rw [dif_pos h]
  unfold Char.ofNatAux Char.toNat
  simp [UInt32.toNat]

theorem toLower_eq_of_not_upper {c : Char} (h : ¬(c.toNat ≥ 65 ∧ c.toNat ≤ 90)) :
    Char.toLower c = c := by
  unfold Char.toLower
  exact if_neg h

theorem toNat_toLower_not_upper (c : Char) :
    ¬((Char.toLower c).toNat ≥ 65 ∧ (Char.toLower c).toNat ≤ 90) := by
  by_cases h : c.toNat ≥ 65 ∧ c.toNat ≤ 90
  · have hv : (c.toNat + 32).isValidChar := Or.inl (by omega)
    unfold Char.toLower
    rw [if_pos h, char_toNat_ofNat_valid hv]
    omega
  · rw [toLower_eq_of_not_upper h]
    exact h

theorem toLower_toLower (c : Char) : Char.toLower (Char.toLower c) = Char.toLower c :=
  toLower_eq_of_not_upper (toNat_toLower_not_upper c)

theorem pyLower_commandPfx (k : PyStr) : pyLower (commandPfx k) = commandPfx k := by
  unfold commandPfx spaceToUnderscore pyLower
  generalize pyStrip k = s
  induction s with
  | nil => rfl
  | cons c cs ih =>
    simp only [List.map_cons]
    rw [ih]
    congr 1
    by_cases hsp : Char.toLower c = ' '
    · rw [if_pos hsp]
      decide
    · rw [if_neg hsp]
      exact toLower_toLower c

theorem pyLower_append (a b : PyStr) : pyLower (a ++ b) = pyLower a ++ pyLower b :=
  List.map_append _ a b

/-! ### Filename decomposition lemmas -/

theorem sorted_build_command_prefixes (m : List (PyStr × PyStr)) :
    List.Sorted (fun a b : PyStr × PyStr => b.1.length ≤ a.1.length)
      (build_command_prefixes m) := by
  haveI : IsTotal (PyStr × PyStr) (fun a b : PyStr × PyStr => b.1.length ≤ a.1.length) :=
    ⟨fun a b => Nat.le_total b.1.length a.1.length⟩
  haveI : IsTrans (PyStr × PyStr) (fun a b : PyStr × PyStr => b.1.length ≤ a.1.length) :=
    ⟨fun _ _ _ hab hbc => Nat.le_trans hbc hab⟩
  unfold build_command_prefixes
  exact List.sorted_insertionSort _ _

theorem mem_build_command_prefixes {m : List (PyStr × PyStr)} {q : PyStr × PyStr} :
    q ∈ build_command_prefixes m ↔ ∃ kv ∈ m, (commandPfx kv.1, kv.1) = q := by
  unfold build_command_prefixes
  rw [List.mem_insertionSort, List.mem_map]

/-- In a list that is pairwise descending by first-component length, `find?`
succeeds as soon as some member satisfies the predicate, and the found entry
is at least as long as that member. -/
theorem find_desc (l : List (PyStr × PyStr)) (P : PyStr × PyStr → Bool) {x : PyStr × PyStr}
    (hs : l.Pairwise (fun a b : PyStr × PyStr => b.1.length ≤ a.1.length))
    (hx : x ∈ l) (hPx : P x = true) :
    ∃ q, l.find? P = some q ∧ x.1.length ≤ q.1.length ∧ P q = true ∧ q ∈ l := by
  induction l with
  | nil => cases hx
  | cons a t ih =>
    rcases List.pairwise_cons.mp hs with ⟨ha, ht⟩
    by_cases hPa : P a = true
    · refine ⟨a, List.find?_cons_of_pos t hPa, ?_, hPa, List.mem_cons_self a t⟩
      rcases List.mem_cons.mp hx with rfl | hxt
      · exact Nat.le_refl _
      · exact ha x hxt
    · have hxt : x ∈ t := by
        rcases List.mem_cons.mp hx with rfl | hmem
        · exact absurd hPx hPa
        · exact hmem
      rcases ih ht hxt with ⟨q, hq, hlen, hPq, hqmem⟩

      exact ⟨q, by rw [List.find?_cons_of_neg t hPa]; exact hq, hlen, hPq,
        List.mem_cons_of_mem a hqmem⟩

/-- Claim C8: on a successful decomposition the hostname is the original-case
stem with the matched filename-safe form and one separator removed, while the
match itself was tested against the lower-cased stem; concretely, decomposing
`Show_CDP_Neighbors_Router-01` against the catalog key "show cdp neighbors"
yields the hostname `Router-01` with its case preserved. -/
theorem claim_C8 :
    (∀ stem pfxs q hn k, split_command_and_hostname stem pfxs = some (q, hn, k) →
      hn = stem.drop (q.length + 1) ∧ (q ++ [ '_' ]) <+: pyLower stem) ∧
    split_command_and_hostname (pyS "Show_CDP_Neighbors_Router-01")
        (build_command_prefixes [(pyS "show cdp neighbors", pyS "t")]) =
      some (pyS "show_cdp_neighbors", pyS "Router-01", pyS "show cdp neighbors") := by
  constructor
  · intro stem pfxs q hn k hsplit
    unfold split_command_and_hostname at hsplit
    rcases hfind : List.find? (fun pk => (pk.1 ++ [ '_' ]).isPrefixOf (pyLower stem)) pfxs with
      _ | pk
    · rw [hfind] at hsplit
      exact Option.noConfusion hsplit
    · rw [hfind] at hsplit
      simp only [Option.map_some', Option.some.injEq, Prod.mk.injEq] at hsplit
      obtain ⟨hq, hhn, hk⟩ := hsplit
      subst hq
      refine ⟨hhn.symm, ?_⟩
      have hP0 := List.find?_some hfind
      have hP : (pk.1 ++ [ '_' ]).isPrefixOf (pyLower stem) = true := hP0
      exact List.isPrefixOf_iff_prefix.mp hP
  · decide

/-- Claim C1: when a catalog holds commands whose filename-safe forms `p1` and
`p2` satisfy `p1` strict prefix of `p2`, decomposing a stem that starts with
`p2 ++ "_"` always succeeds, matches a form at least as long as `p2` (the
list is scanned in descending-length order), and therefore never resolves to
the `p1` command. -/
theorem claim_C1 (m : List (PyStr × PyStr)) (c1k c2k stem : PyStr)
    (h1 : c1k ∈ m.map Prod.fst) (h2 : c2k ∈ m.map Prod.fst)
    (hpre : commandPfx c1k <+: commandPfx c2k) (hne : commandPfx c1k ≠ commandPfx c2k)
    (hstem : (commandPfx c2k ++ [ '_' ]) <+: stem) :
    List.Sorted (fun a b : PyStr × PyStr => b.1.length ≤ a.1.length)
      (build_command_prefixes m) ∧
    ∃ q hn k, split_command_and_hostname stem (build_command_prefixes m) = some (q, hn, k) ∧
      (commandPfx c2k).length ≤ q.length ∧ k ≠ c1k := by
  refine ⟨sorted_build_command_prefixes m, ?_⟩
  have hmem : (commandPfx c2k, c2k) ∈ build_command_prefixes m := by
    rw [mem_build_command_prefixes]
    rcases List.mem_map.mp h2 with ⟨kv, hkv, hfst⟩
    exact ⟨kv, hkv, by rw [hfst]⟩
  have hu : pyLower [ '_' ] = [ '_' ] := by decide
  have hfix : pyLower (commandPfx c2k ++ [ '_' ]) = commandPfx c2k ++ [ '_' ] := by
    rw [pyLower_append, pyLower_commandPfx, hu]
  have hpred : (fun pk : PyStr × PyStr => (pk.1 ++ [ '_' ]).isPrefixOf (pyLower stem))
      (commandPfx c2k, c2k) = true := by
    show ((commandPfx c2k ++ [ '_' ]).isPrefixOf (pyLower stem)) = true
    rcases hstem with ⟨rest, hrest⟩
    rw [List.isPrefixOf_iff_prefix]
    refine ⟨pyLower rest, ?_⟩
    calc commandPfx c2k ++ [ '_' ] ++ pyLower rest
        = pyLower (commandPfx c2k ++ [ '_' ]) ++ pyLower rest := by rw [hfix]
      _ = pyLower ((commandPfx c2k ++ [ '_' ]) ++ rest) := (pyLower_append _ _).symm
      _ = pyLower stem := by rw [hrest]
  obtain ⟨q, hfind, hlen, hPq, hqmem⟩ :=
    find_desc (build_command_prefixes m)
      (fun pk : PyStr × PyStr => (pk.1 ++ [ '_' ]).isPrefixOf (pyLower stem))
      (sorted_build_command_prefixes m) hmem hpred
  refine ⟨q.1, stem.drop (q.1.length + 1), q.2, ?_, hlen, ?_⟩
  · unfold split_command_and_hostname
    rw [hfind]
    rfl
  · intro hk
    rcases mem_build_command_prefixes.mp hqmem with ⟨kv, _, hkvq⟩
    have hq1 : q.1 = commandPfx q.2 := by
      rw [← hkvq]
    rw [hq1, hk] at hlen
    have hle : (commandPfx c1k).length ≤ (commandPfx c2k).length := hpre.length_le
    have heq : commandPfx c1k = commandPfx c2k :=
      List.IsPrefix.eq_of_length hpre (Nat.le_antisymm hle hlen)
    exact hne heq

theorem claim_C8_witness :
    pyS "Router-01" =
      (pyS "Show_CDP_Neighbors_Router-01").drop ((pyS "show_cdp_neighbors").length + 1) ∧
    (pyS "show_cdp_neighbors" ++ [ '_' ]) <+: pyLower (pyS "Show_CDP_Neighbors_Router-01") :=
  claim_C8.1 (pyS "Show_CDP_Neighbors_Router-01")
    (build_command_prefixes [(pyS "show cdp neighbors", pyS "t")])
    (pyS "show_cdp_neighbors") (pyS "Router-01") (pyS "show cdp neighbors") claim_C8.2

theorem claim_C1_witness :
    List.Sorted (fun a b : PyStr × PyStr => b.1.length ≤ a.1.length)
      (build_command_prefixes [(pyS "show ip", pyS "t1"), (pyS "show ip interface", pyS "t2")]) ∧
    ∃ q hn k, split_command_and_hostname (pyS "show_ip_interface_SW1")
        (build_command_prefixes [(pyS "show ip", pyS "t1"), (pyS "show ip interface", pyS "t2")]) =
          some (q, hn, k) ∧
      (commandPfx (pyS "show ip interface")).length ≤ q.length ∧ k ≠ pyS "show ip" :=
  claim_C1 [(pyS "show ip", pyS "t1"), (pyS "show ip interface", pyS "t2")]
    (pyS "show ip") (pyS "show ip interface") (pyS "show_ip_interface_SW1")
    (by decide) (by decide) (by decide) (by decide) (by decide)

/-! ### Command-key slugs (claim C9) -/

/-- Claim C9 counterexample: the claim predicts that a key with consecutive
spaces yields the same filename-safe form as the single-space key (runs of
whitespace collapsed to one underscore), but `build_command_prefixes` maps
`"show  ip"` to `"show__ip"`, one underscore per space, which differs from
the run-collapsed form `"show_ip"`. -/
theorem claim_C9_counterexample :
    build_command_prefixes [(pyS "show  ip", pyS "t")] =
      [(pyS "show__ip", pyS "show  ip")] ∧
    runCollapsePfx (pyS "show  ip") = pyS "show_ip" ∧
    commandPfx (pyS "show  ip") ≠ runCollapsePfx (pyS "show  ip") := by
  decide

/-- Claim C9 (amended): every entry of `build_command_prefixes` pairs a catalog
key `k` with `commandPfx k`, the key stripped of leading and trailing
whitespace, lower-cased, and with each space character individually replaced
by an underscore; consecutive spaces therefore give consecutive underscores
(`"show  ip"` to `"show__ip"`) and a tab is left unchanged
(`"show\tip"` keeps its tab), while the stripped ends disappear. -/
theorem claim_C9 :
    (∀ (m : List (PyStr × PyStr)) (p k : PyStr),
      (p, k) ∈ build_command_prefixes m ↔ (k ∈ m.map Prod.fst ∧ p = commandPfx k)) ∧
    commandPfx (pyS "show  ip") = pyS "show__ip" ∧
    commandPfx (pyS "show\tip") = pyS "show\tip" ∧
    commandPfx (pyS " Show IP ") = pyS "show_ip" := by
  refine ⟨?_, by decide, by decide, by decide⟩
  intro m p k
  rw [mem_build_command_prefixes]
  constructor
  · rintro ⟨kv, hm, heq⟩
    rw [Prod.mk.injEq] at heq
    obtain ⟨hp, hk⟩ := heq
    subst hk
    exact ⟨List.mem_map.mpr ⟨kv, hm, rfl⟩, hp.symm⟩
  · rintro ⟨hk, hp⟩
    rcases List.mem_map.mp hk with ⟨kv, hm, hfst⟩
    exact ⟨kv, hm, by rw [hfst, hp]⟩

theorem claim_C9_witness :
    (pyS "show__ip", pyS "show  ip") ∈ build_command_prefixes [(pyS "show  ip", pyS "t")] :=
  (claim_C9.1 [(pyS "show  ip", pyS "t")] (pyS "show__ip") (pyS "show  ip")).mpr
    ⟨by decide, by decide⟩

/-! ### Combined-mode hostname inference (claim C5) -/

theorem map_eq_self_of_mem {l : List Char} {f : Char → Char} (h : ∀ a ∈ l, f a = a) :
    l.map f = l := by
  induction l with
  | nil => rfl
  | cons a t ih =>
    simp only [List.map_cons]
    rw [h a (List.mem_cons_self a t), ih (fun x hx => h x (List.mem_cons_of_mem a hx))]

/-- Claim C5 counterexample: for the stem `show_lb_vserver__h` the source
strips the slug and then all leading underscores (`lstrip("_")`), returning
`"h"`, while the claim's "slug plus exactly one separator character" rule
returns `"_h"`. -/
theorem claim_C5_counterexample :
    infer_hostname_after_command (pyS "show_lb_vserver__h.txt") (pyS "show lb vserver") =
      pyS "h" ∧
    claimHostnameOneSep (pyS "show_lb_vserver__h.txt") (pyS "show lb vserver") =
      pyS "_h" ∧
    infer_hostname_after_command (pyS "show_lb_vserver__h.txt") (pyS "show lb vserver") ≠
      claimHostnameOneSep (pyS "show_lb_vserver__h.txt") (pyS "show lb vserver") := by
  decide

/-- Claim C5 (amended): in combined mode the derived hostname is the
case-preserved suffix of the stem left after stripping a case-insensitive
match of the command's slug and then all immediately following underscores
(not exactly one); when the stem does not start with the slug the fallback
heuristic `infer_hostname` is used; and the spec's concrete example holds. -/
theorem claim_C5 :
    (∀ (filename command m us : PyStr) (h0 : Char) (hrest : PyStr),
      stemOr filename = m ++ us ++ h0 :: hrest →
      pyLower m = command_to_slug command →
      command_to_slug command ≠ [] →
      (∀ u ∈ us, u = '_') →
      h0 ≠ '_' →
      infer_hostname_after_command filename command = h0 :: hrest) ∧
    (∀ filename command : PyStr,
      (command_to_slug command).isPrefixOf (pyLower (stemOr filename)) = false →
      infer_hostname_after_command filename command = infer_hostname filename) ∧
    infer_hostname_after_command (pyS "show_lb_vserver_netscaler1_L4_1.txt")
      (pyS "show lb vserver") = pyS "netscaler1_L4_1" := by
  refine ⟨?_, ?_, by decide⟩
  · intro filename command m us h0 hrest hstem hm hslug hus h0ne
    have hlen : (command_to_slug command).length = m.length := by
      rw [← hm]
      exact List.length_map m Char.toLower
    have husl : pyLower us = us :=
      map_eq_self_of_mem (fun u hu => by rw [hus u hu]; decide)
    have hpref : (command_to_slug command).isPrefixOf (pyLower (stemOr filename)) = true := by
      rw [List.isPrefixOf_iff_prefix, hstem, pyLower_append, pyLower_append, hm]
      exact ⟨pyLower us ++ pyLower (h0 :: hrest), by rw [List.append_assoc]⟩
    simp only [infer_hostname_after_command]
    rw [if_pos ⟨hslug, hpref⟩, hstem, hlen, List.append_assoc m us (h0 :: hrest),
      List.drop_left]
    have hdw : (us ++ h0 :: hrest).dropWhile (fun c => c = '_') = h0 :: hrest := by
      rw [List.dropWhile_append]
      have hnil : us.dropWhile (fun c => decide (c = '_')) = [] :=
        List.dropWhile_eq_nil_iff.mpr (fun x hx => by rw [hus x hx]; decide)
      rw [hnil]
      simp only [List.isEmpty_nil, if_true, List.dropWhile_cons]
      rw [if_neg (by simpa using h0ne)]
    rw [hdw, if_pos (List.cons_ne_nil h0 hrest)]
  · intro filename command hfalse
    simp only [infer_hostname_after_command]
    rw [if_neg]
    rintro ⟨_, hpf⟩
    rw [hfalse] at hpf
    exact Bool.false_ne_true hpf

theorem claim_C5_witness :
    infer_hostname_after_command (pyS "Show_LB_vserver__NS-1.txt") (pyS "show lb vserver") =
      pyS "NS-1" :=
  claim_C5.1 (pyS "Show_LB_vserver__NS-1.txt") (pyS "show lb vserver")
    (pyS "Show_LB_vserver") (pyS "__") 'N' (pyS "S-1")
    (by decide) (by decide) (by decide) (by decide) (by decide)

/-! ### Template resolution errors (claim C4) -/

theorem noPlatformMsg_getElem (r p : PyStr) : (noPlatformMsg r p)[15]? = some 'p' := by
  unfold noPlatformMsg
  rw [List.getElem?_append_left (by decide)]
  decide

theorem noCommandMsg_getElem (c r : PyStr) : (noCommandMsg c r)[15]? = some 'c' := by
  unfold noCommandMsg
  rw [List.getElem?_append_left (by decide)]
  decide

theorem noPlatformMsg_ne_noCommandMsg (r p c r' : PyStr) :
    noPlatformMsg r p ≠ noCommandMsg c r' := by
  intro h
  have h15 : (noPlatformMsg r p)[15]? = (noCommandMsg c r')[15]? :=
    congrArg (fun l : PyStr => l[15]?) h
  rw [noPlatformMsg_getElem, noCommandMsg_getElem] at h15
  exact absurd h15 (by decide)

/-- Claim C4 counterexample: both failure modes of `resolve_template_name`
raise the same generic Python exception class, `KeyError`: with an empty
catalog the platform failure is `KeyError`, and with a catalog that lacks the
command the command failure is also `KeyError`, so the two kinds are not
different error variants distinguishable by type. -/
theorem claim_C4_counterexample :
    resolve_template_name [] (pyS "p") (pyS "c") [] =
      .error ⟨pyS "KeyError", noPlatformMsg (pyS "p") (pyS "p")⟩ ∧
    resolve_template_name [(pyS "p", [(pyS "other", pyS "t")])] (pyS "p") (pyS "c") [] =
      .error ⟨pyS "KeyError", noCommandMsg (pyS "c") (pyS "p")⟩ :=
  ⟨rfl, rfl⟩

/-- Claim C4 (amended): template resolution fails exactly when the resolved
platform's catalog is empty or absent (platform failure) or when the command
is not a key of a non-empty catalog (command failure); both failures are
raised as the same generic `KeyError` exception class, so the immediate
caller cannot distinguish them as variants, but their messages never
coincide — a platform failure message always differs from a command failure
message (they disagree at index 15), so the kinds remain distinguishable by
message. -/
theorem claim_C4 :
    (∀ mapping platform command aliases,
      platformMapOf mapping aliases platform = [] →
      resolve_template_name mapping platform command aliases =
        .error ⟨pyS "KeyError", noPlatformMsg (resolvedPlatform aliases platform) platform⟩) ∧
    (∀ mapping platform command aliases,
      platformMapOf mapping aliases platform ≠ [] →
      dictGet (platformMapOf mapping aliases platform) command = none →
      resolve_template_name mapping platform command aliases =
        .error ⟨pyS "KeyError", noCommandMsg command (resolvedPlatform aliases platform)⟩) ∧
    (∀ mapping platform command aliases tpl,
      platformMapOf mapping aliases platform ≠ [] →
      dictGet (platformMapOf mapping aliases platform) command = some tpl →
      resolve_template_name mapping platform command aliases = .ok tpl) ∧
    (∀ r p c r', noPlatformMsg r p ≠ noCommandMsg c r') := by
  refine ⟨?_, ?_, ?_, noPlatformMsg_ne_noCommandMsg⟩
  · intro mapping platform command aliases hempty
    simp only [resolve_template_name]
    rw [if_pos hempty]
  · intro mapping platform command aliases hne hnone
    simp only [resolve_template_name]
    rw [if_neg hne, hnone]
  · intro mapping platform command aliases tpl hne hsome
    simp only [resolve_template_name]
    rw [if_neg hne, hsome]

theorem claim_C4_witness :
    resolve_template_name [(pyS "ios", [(pyS "show version", pyS "v.textfsm")])]
        (pyS "ios") (pyS "show clock") [] =
      .error ⟨pyS "KeyError",
        noCommandMsg (pyS "show clock") (resolvedPlatform [] (pyS "ios"))⟩ :=
  claim_C4.2.1 [(pyS "ios", [(pyS "show version", pyS "v.textfsm")])]
    (pyS "ios") (pyS "show clock") [] (by decide) (by decide)

/-! ### Autodetection (claims C2 and C3) -/

theorem pairLt_trans {x y z : Nat × Nat} (h1 : pairLt x y) (h2 : pairLt y z) : pairLt x z := by
  obtain ⟨x1, x2⟩ := x
  obtain ⟨y1, y2⟩ := y
  obtain ⟨z1, z2⟩ := z
  unfold pairLt at *
  omega

theorem pairLt_of_not_of_lt {x y z : Nat × Nat} (h1 : ¬ pairLt x y) (h2 : pairLt x z) :
    pairLt y z := by
  obtain ⟨x1, x2⟩ := x
  obtain ⟨y1, y2⟩ := y
  obtain ⟨z1, z2⟩ := z
  unfold pairLt at *
  omega

/-- The source scan loop is the fold of the incumbent update over the list of
successful attempts. -/
theorem autodetectLoop_eq_foldl (engine : PyStr → EngineOutcome)
    (cat : List (PyStr × PyStr)) (fuel : Nat) (best : Option AutoDetectResult) :
    autodetectLoop engine cat fuel best =
      (autodetectAttempts engine cat fuel).foldl stepBest best := by
  induction cat generalizing fuel best with
  | nil => cases fuel <;> rfl
  | cons hd tl ih =>
    obtain ⟨command, tpl⟩ := hd
    cases fuel with
    | zero => rfl
    | succ n =>
      cases heng : engine tpl with
      | missing => simp only [autodetectLoop, autodetectAttempts, heng]; exact ih n best
      | failure => simp only [autodetectLoop, autodetectAttempts, heng]; exact ih n best
      | ok headers rows =>
        simp only [autodetectLoop, autodetectAttempts, heng]
        by_cases hz : rows.length = 0
        · rw [if_pos hz, if_pos hz]
          exact ih n best
        · rw [if_neg hz, if_neg hz]
          cases best with
          | none => rw [List.foldl_cons]; exact ih n _
          | some b => rw [List.foldl_cons]; exact ih n _

theorem foldl_stepBest_ne_none (t : List AutoDetectResult) (b : AutoDetectResult) :
    t.foldl stepBest (some b) ≠ none := by
  induction t generalizing b with
  | nil => exact Option.noConfusion
  | cons c t' ih =>
    rw [List.foldl_cons]
    cases hb : stepBest (some b) c with
    | none => exact Option.noConfusion hb
    | some b' => exact ih b'

/-- The fold keeps the first candidate that no later candidate strictly
exceeds: the result splits the attempt list into strictly smaller earlier
candidates, the result itself, and later candidates that do not strictly
exceed it. -/
theorem foldl_stepBest_spec (t : List AutoDetectResult) (b r : AutoDetectResult)
    (h : t.foldl stepBest (some b) = some r) :
    (r = b ∧ ∀ c ∈ t, ¬ pairLt (b.rows, b.cols) (c.rows, c.cols)) ∨
    (pairLt (b.rows, b.cols) (r.rows, r.cols) ∧
      ∃ t₁ t₂, t = t₁ ++ r :: t₂ ∧
        (∀ c ∈ t₁, pairLt (c.rows, c.cols) (r.rows, r.cols)) ∧
        (∀ c ∈ t₂, ¬ pairLt (r.rows, r.cols) (c.rows, c.cols))) := by
  induction t generalizing b with
  | nil =>
    left
    refine ⟨(Option.some.injEq _ _ ▸ h).symm, ?_⟩
    intro c hc
    cases hc
  | cons c t' ih =>
    rw [List.foldl_cons] at h
    by_cases hbc : pairLt (b.rows, b.cols) (c.rows, c.cols)
    · have hstep : stepBest (some b) c = some c := by
        show some (if pairLt (b.rows, b.cols) (c.rows, c.cols) then c else b) = some c
        rw [if_pos hbc]
      rw [hstep] at h
      rcases ih c h with ⟨rfl, hall⟩ | ⟨hcr, t₁, t₂, heq, hpre, hsuf⟩
      · right
        exact ⟨hbc, [], t', rfl, fun x hx => absurd hx (List.not_mem_nil x), hall⟩
      · right
        refine ⟨pairLt_trans hbc hcr, c :: t₁, t₂, by rw [heq]; rfl, ?_, hsuf⟩
        intro x hx
        rcases List.mem_cons.mp hx with rfl | hx'
        · exact hcr
        · exact hpre x hx'
    · have hstep : stepBest (some b) c = some b := by
        show some (if pairLt (b.rows, b.cols) (c.rows, c.cols) then c else b) = some b
        rw [if_neg hbc]
      rw [hstep] at h
      rcases ih b h with ⟨rfl, hall⟩ | ⟨hbr, t₁, t₂, heq, hpre, hsuf⟩
      · left
        refine ⟨rfl, ?_⟩
        intro x hx
        rcases List.mem_cons.mp hx with rfl | hx'
        · exact hbc
        · exact hall x hx'
      · right
        refine ⟨hbr, c :: t₁, t₂, by rw [heq]; rfl, ?_, hsuf⟩
        intro x hx
        rcases List.mem_cons.mp hx with rfl | hx'
        · exact pairLt_of_not_of_lt hbc hbr
        · exact hpre x hx'

/-- From an empty incumbent, the fold returns the first candidate of the
attempt list that is not strictly exceeded by any other attempt. -/
theorem foldl_stepBest_none_spec (l : List AutoDetectResult) (r : AutoDetectResult)
    (h : l.foldl stepBest none = some r) :
    ∃ l₁ l₂, l = l₁ ++ r :: l₂ ∧
      (∀ c ∈ l₁, pairLt (c.rows, c.cols) (r.rows, r.cols)) ∧
      (∀ c ∈ l₂, ¬ pairLt (r.rows, r.cols) (c.rows, c.cols)) := by
  cases l with
  | nil => exact Option.noConfusion h
  | cons c t =>
    rw [List.foldl_cons] at h
    have hc : stepBest none c = some c := rfl
    rw [hc] at h
    rcases foldl_stepBest_spec t c r h with ⟨rfl, hall⟩ | ⟨hcr, t₁, t₂, heq, hpre, hsuf⟩
    · exact ⟨[], t, rfl, fun x hx => absurd hx (List.not_mem_nil x), hall⟩
    · refine ⟨c :: t₁, t₂, by rw [heq]; rfl, ?_, hsuf⟩
      intro x hx
      rcases List.mem_cons.mp hx with rfl | hx'
      · exact hcr
      · exact hpre x hx'

/-- Claim C2: whenever autodetection succeeds, the returned candidate is the
first successful attempt (in catalog order) whose `(rows, cols)` pair is not
strictly exceeded: every earlier attempt is strictly smaller in the
lexicographic order, and no later attempt — equal pairs included — strictly
exceeds it, so a later candidate with an equal pair never replaces it. -/
theorem claim_C2 (mapping : List (PyStr × List (PyStr × PyStr)))
    (aliases : List (PyStr × PyStr)) (platform : PyStr)
    (engine : PyStr → EngineOutcome) (max_templates : Nat) (r : AutoDetectResult)
    (h : autodetect_command mapping aliases platform engine max_templates = .ok r) :
    ∃ l₁ l₂,
      autodetectAttempts engine (platformMapOf mapping aliases platform) max_templates =
        l₁ ++ r :: l₂ ∧
      (∀ c ∈ l₁, pairLt (c.rows, c.cols) (r.rows, r.cols)) ∧
      (∀ c ∈ l₂, ¬ pairLt (r.rows, r.cols) (c.rows, c.cols)) := by
  unfold autodetect_command at h
  by_cases hempty : platformMapOf mapping aliases platform = []
  · rw [if_pos hempty] at h
    exact Except.noConfusion h
  · rw [if_neg hempty] at h
    rcases hloop : autodetectLoop engine (platformMapOf mapping aliases platform)
        max_templates none with _ | best
    · rw [hloop] at h
      exact Except.noConfusion h
    · rw [hloop] at h
      have hbr : best = r := Except.ok.injEq _ _ ▸ h
      subst hbr
      rw [autodetectLoop_eq_foldl] at hloop
      exact foldl_stepBest_none_spec _ _ hloop

theorem claim_C2_witness :
    autodetect_command
        [(pyS "nix", [(pyS "cmd one", pyS "t1"), (pyS "cmd two", pyS "t2")])] []
        (pyS "nix")
        (fun _ => .ok [pyS "a", pyS "b", pyS "c"]
          (List.replicate 5 [pyS "x", pyS "y", pyS "z"])) 200 =
      .ok ⟨pyS "cmd one", pyS "t1", 5, 3⟩ ∧
    ∃ l₁ l₂,
      autodetectAttempts
          (fun _ => .ok [pyS "a", pyS "b", pyS "c"]
            (List.replicate 5 [pyS "x", pyS "y", pyS "z"]))
          (platformMapOf
            [(pyS "nix", [(pyS "cmd one", pyS "t1"), (pyS "cmd two", pyS "t2")])] []
            (pyS "nix")) 200 =
        l₁ ++ ⟨pyS "cmd one", pyS "t1", 5, 3⟩ :: l₂ ∧
      (∀ c ∈ l₁, pairLt (c.rows, c.cols) (5, 3)) ∧
      (∀ c ∈ l₂, ¬ pairLt ((5 : Nat), (3 : Nat)) (c.rows, c.cols)) :=
  ⟨rfl,
    claim_C2 [(pyS "nix", [(pyS "cmd one", pyS "t1"), (pyS "cmd two", pyS "t2")])] []
      (pyS "nix")
      (fun _ => .ok [pyS "a", pyS "b", pyS "c"]
        (List.replicate 5 [pyS "x", pyS "y", pyS "z"])) 200
      ⟨pyS "cmd one", pyS "t1", 5, 3⟩ rfl⟩

/-- Claim C3: for a non-empty catalog, autodetection fails — with the
`ValueError` carrying the no-match message — exactly when the list of
successful attempts (those whose template exists, whose engine run does not
fail, and which yield at least one row, within the attempt cap) is empty;
missing templates, engine failures and zero-row results are skipped without
aborting the scan, and as soon as one successful attempt exists some
candidate is returned. -/
theorem claim_C3 (mapping : List (PyStr × List (PyStr × PyStr)))
    (aliases : List (PyStr × PyStr)) (platform : PyStr)
    (engine : PyStr → EngineOutcome) (max_templates : Nat)
    (hne : platformMapOf mapping aliases platform ≠ []) :
    (autodetect_command mapping aliases platform engine max_templates =
        .error ⟨pyS "ValueError", noMatchMsg (resolvedPlatform aliases platform)⟩ ↔
      autodetectAttempts engine (platformMapOf mapping aliases platform) max_templates = []) ∧
    (autodetectAttempts engine (platformMapOf mapping aliases platform) max_templates ≠ [] →
      ∃ r, autodetect_command mapping aliases platform engine max_templates = .ok r) := by
  constructor
  · constructor
    · intro herr
      unfold autodetect_command at herr
      rw [if_neg hne] at herr
      rcases hloop : autodetectLoop engine (platformMapOf mapping aliases platform)
          max_templates none with _ | best
      · rw [autodetectLoop_eq_foldl] at hloop
        rcases hl : autodetectAttempts engine (platformMapOf mapping aliases platform)
            max_templates with _ | ⟨c, t⟩
        · rfl
        · rw [hl, List.foldl_cons] at hloop
          exact absurd hloop (foldl_stepBest_ne_none t c)
      · rw [hloop] at herr
        exact Except.noConfusion herr
    · intro hl
      unfold autodetect_command
      rw [if_neg hne, autodetectLoop_eq_foldl, hl]
      rfl
  · intro hl
    unfold autodetect_command
    rw [if_neg hne, autodetectLoop_eq_foldl]
    rcases hatt : autodetectAttempts engine (platformMapOf mapping aliases platform)
        max_templates with _ | ⟨c, t⟩
    · exact absurd hatt hl
    · rw [List.foldl_cons]
      rcases hres : t.foldl stepBest (stepBest none c) with _ | best
      · exact absurd (by rw [← hres]; rfl) (foldl_stepBest_ne_none t c)
      · exact ⟨best, rfl⟩

theorem claim_C3_witness :
    (autodetect_command [(pyS "ios", [(pyS "show c", pyS "t")])] [] (pyS "ios")
        (fun _ => .failure) 200 =
        .error ⟨pyS "ValueError", noMatchMsg (resolvedPlatform [] (pyS "ios"))⟩ ↔
      autodetectAttempts (fun _ => .failure)
        (platformMapOf [(pyS "ios", [(pyS "show c", pyS "t")])] [] (pyS "ios")) 200 = []) ∧
    (autodetectAttempts (fun _ => .failure)
        (platformMapOf [(pyS "ios", [(pyS "show c", pyS "t")])] [] (pyS "ios")) 200 ≠ [] →
      ∃ r, autodetect_command [(pyS "ios", [(pyS "show c", pyS "t")])] [] (pyS "ios")
        (fun _ => .failure) 200 = .ok r) :=
  claim_C3 [(pyS "ios", [(pyS "show c", pyS "t")])] [] (pyS "ios")
    (fun _ => .failure) 200 (by decide)

/-! ### Per-file aggregation (claim C6) -/

theorem foldl_discoverStep_eq (ks : List PyStr) (cols : List PyStr) :
    ks.foldl discoverStep cols = dedupKeep cols (ks.filter (fun k => k ≠ hostnameKey)) := by
  induction ks generalizing cols with
  | nil => rfl
  | cons k ks ih =>
    rw [List.foldl_cons, List.filter_cons]
    by_cases hk : k = hostnameKey
    · have hstep : discoverStep cols k = cols := by
        unfold discoverStep
        rw [if_neg (by rw [hk]; simp)]
      rw [hstep, if_neg (by simp [hk])]
      exact ih cols
    · rw [if_pos (by simp [hk])]
      by_cases hmem : k ∈ cols
      · have hstep : discoverStep cols k = cols := by
          unfold discoverStep
          rw [if_neg (by simp [hmem])]
        rw [hstep]
        show ks.foldl discoverStep cols = dedupKeep cols (k :: ks.filter (fun k => k ≠ hostnameKey))
        unfold dedupKeep
        rw [if_pos hmem]
        exact ih cols
      · have hstep : discoverStep cols k = cols ++ [k] := by
          unfold discoverStep
          rw [if_pos ⟨hk, hmem⟩]
        rw [hstep]
        show ks.foldl discoverStep (cols ++ [k]) =
          dedupKeep cols (k :: ks.filter (fun k => k ≠ hostnameKey))
        unfold dedupKeep
        rw [if_neg hmem]
        exact ih (cols ++ [k])

theorem dedupKeep_cons (seen : List PyStr) (k : PyStr) (ks : List PyStr) :
    dedupKeep seen (k :: ks) =
      if k ∈ seen then dedupKeep seen ks else dedupKeep (seen ++ [k]) ks := rfl

theorem dedupKeep_append (xs ys seen : List PyStr) :
    dedupKeep seen (xs ++ ys) = dedupKeep (dedupKeep seen xs) ys := by
  induction xs generalizing seen with
  | nil => rfl
  | cons x xs ih =>
    rw [List.cons_append, dedupKeep_cons, dedupKeep_cons]
    by_cases hx : x ∈ seen
    · rw [if_pos hx, if_pos hx]
      exact ih seen
    · rw [if_neg hx, if_neg hx]
      exact ih (seen ++ [x])

theorem discoverCols_eq (rows : List (List (PyStr × PyStr))) (cols : List PyStr) :
    rows.foldl (fun cols r => r.foldl (fun cols kv => discoverStep cols kv.1) cols) cols =
      dedupKeep cols
        ((rows.flatMap (fun r => r.map Prod.fst)).filter (fun k => k ≠ hostnameKey)) := by
  induction rows generalizing cols with
  | nil => rfl
  | cons r rows ih =>
    rw [List.foldl_cons, List.flatMap_cons, List.filter_append, dedupKeep_append]
    have hinner : r.foldl (fun cols kv => discoverStep cols kv.1) cols =
        dedupKeep cols ((r.map Prod.fst).filter (fun k => k ≠ hostnameKey)) := by
      rw [← List.foldl_map Prod.fst discoverStep r cols]
      exact foldl_discoverStep_eq (r.map Prod.fst) cols
    rw [hinner]
    exact ih _

/-- Claim C6: in per-file aggregation the output column list is `"hostname"`
first, followed by the record keys in first-seen order with duplicates
removed and `"hostname"` itself excluded from the scan; the example records
`[{a, b}, {a, c}]` give exactly `["hostname", "a", "b", "c"]`; and a record
that lacks a field is written as the empty value, never an error. -/
theorem claim_C6 :
    (∀ rows, writeCsvFieldnames rows =
      hostnameKey :: dedupKeep []
        ((rows.flatMap (fun r => r.map Prod.fst)).filter (fun k => k ≠ hostnameKey))) ∧
    writeCsvFieldnames
        [[(pyS "a", pyS "1"), (pyS "b", pyS "2")],
         [(pyS "a", pyS "3"), (pyS "c", pyS "4")]] =
      [hostnameKey, pyS "a", pyS "b", pyS "c"] ∧
    (∀ r field, dictGet r field = none → csvCell r field = []) := by
  refine ⟨?_, by decide, ?_⟩
  · intro rows
    unfold writeCsvFieldnames discoverCols
    rw [discoverCols_eq rows []]
  · intro r field hnone
    unfold csvCell
    rw [hnone]
    rfl

theorem claim_C6_witness :
    dictGet [(pyS "a", pyS "3"), (pyS "c", pyS "4")] (pyS "b") = none ∧
    csvCell [(pyS "a", pyS "3"), (pyS "c", pyS "4")] (pyS "b") = [] :=
  ⟨by decide, claim_C6.2.2 [(pyS "a", pyS "3"), (pyS "c", pyS "4")] (pyS "b") (by decide)⟩

/-! ### Combined-mode aggregation (claim C7) -/

theorem strLe_cons_iff (a b : Char) (s t : PyStr) :
    strLe (a :: s) (b :: t) = true ↔
      a < b ∨ (a = b ∧ strLe s t = true) := by
  show (if a < b then true
    else if b < a then false else strLe s t) = true ↔ _
  by_cases h1 : a < b
  · rw [if_pos h1]
    simp [h1]
  · rw [if_neg h1]
    by_cases h2 : b < a
    · rw [if_pos h2]
      constructor
      · intro hF
        exact absurd hF (by decide)
      · rintro (h | ⟨rfl, _⟩)
        · exact absurd h h1
        · exact absurd h2 (lt_irrefl a)
    · rw [if_neg h2]
      have heq : a = b := le_antisymm (not_lt.mp h2) (not_lt.mp h1)
      subst heq
      simp [lt_irrefl]

theorem strLe_total (a b : PyStr) : strLe a b = true ∨ strLe b a = true := by
  induction a generalizing b with
  | nil => left; rfl
  | cons x s ih =>
    cases b with
    | nil => right; rfl
    | cons y t =>
      rcases lt_trichotomy x y with h | h | h
      · left
        rw [strLe_cons_iff]
        exact Or.inl h
      · rcases ih t with hst | hts
        · left
          rw [strLe_cons_iff]
          exact Or.inr ⟨h, hst⟩
        · right
          rw [strLe_cons_iff]
          exact Or.inr ⟨h.symm, hts⟩
      · right
        rw [strLe_cons_iff]
        exact Or.inl h

theorem strLe_trans {a b c : PyStr} (h1 : strLe a b = true) (h2 : strLe b c = true) :
    strLe a c = true := by
  induction a generalizing b c with
  | nil => rfl
  | cons x s ih =>
    cases b with
    | nil => exact Bool.noConfusion h1
    | cons y t =>
      cases c with
      | nil => exact Bool.noConfusion h2
      | cons z u =>
        rw [strLe_cons_iff] at h1 h2 ⊢
        rcases h1 with hxy | ⟨rfl, hst⟩
        · rcases h2 with hyz | ⟨rfl, _⟩
          · exact Or.inl (lt_trans hxy hyz)
          · exact Or.inl hxy
        · rcases h2 with hyz | ⟨rfl, htu⟩
          · exact Or.inl hyz
          · exact Or.inr ⟨rfl, ih hst htu⟩

theorem strLe_antisymm {a b : PyStr} (h1 : strLe a b = true) (h2 : strLe b a = true) :
    a = b := by
  induction a generalizing b with
  | nil =>
    cases b with
    | nil => rfl
    | cons y t => exact Bool.noConfusion h2
  | cons x s ih =>
    cases b with
    | nil => exact Bool.noConfusion h1
    | cons y t =>
      rw [strLe_cons_iff] at h1 h2
      rcases h1 with hxy | ⟨rfl, hst⟩
      · rcases h2 with hyx | ⟨rfl, _⟩
        · exact absurd (lt_trans hxy hyx) (lt_irrefl _)
        · exact absurd hxy (lt_irrefl _)
      · rcases h2 with hyx | ⟨_, hts⟩
        · exact absurd hyx (lt_irrefl _)
        · rw [ih hst hts]

theorem sortStrings_sorted (l : List PyStr) :
    List.Sorted (fun a b => strLe a b = true) (sortStrings l) := by
  haveI : IsTotal PyStr (fun a b => strLe a b = true) := ⟨strLe_total⟩
  haveI : IsTrans PyStr (fun a b => strLe a b = true) := ⟨fun _ _ _ => strLe_trans⟩
  unfold sortStrings
  exact List.sorted_insertionSort _ _

theorem sortStrings_perm (l : List PyStr) : (sortStrings l).Perm l :=
  List.perm_insertionSort _ l

theorem sortStrings_congr {l₁ l₂ : List PyStr} (h : l₁.Perm l₂) :
    sortStrings l₁ = sortStrings l₂ := by
  haveI : IsAntisymm PyStr (fun a b => strLe a b = true) := ⟨fun _ _ => strLe_antisymm⟩
  exact List.eq_of_perm_of_sorted
    ((sortStrings_perm l₁).trans (h.trans (sortStrings_perm l₂).symm))
    (sortStrings_sorted l₁) (sortStrings_sorted l₂)

theorem mem_setAdd {s : List PyStr} {x y : PyStr} :
    x ∈ setAdd s y ↔ x ∈ s ∨ x = y := by
  unfold setAdd
  by_cases hy : y ∈ s
  · rw [if_pos hy]
    constructor
    · exact Or.inl
    · rintro (hx | rfl)
      · exact hx
      · exact hy
  · rw [if_neg hy]
    simp

theorem nodup_setAdd {s : List PyStr} (hs : s.Nodup) (y : PyStr) : (setAdd s y).Nodup := by
  unfold setAdd
  by_cases hy : y ∈ s
  · rw [if_pos hy]
    exact hs
  · rw [if_neg hy]
    rw [List.nodup_append]
    exact ⟨hs, List.nodup_singleton y, fun a ha hay => hy (by
      rcases List.mem_singleton.mp hay with rfl
      exact ha)⟩

theorem mem_foldl_setAdd {hs : List PyStr} {s : List PyStr} {x : PyStr} :
    x ∈ hs.foldl setAdd s ↔ x ∈ s ∨ x ∈ hs := by
  induction hs generalizing s with
  | nil => simp
  | cons h t ih =>
    rw [List.foldl_cons]
    rw [ih, mem_setAdd]
    constructor
    · rintro ((hx | rfl) | hx)
      · exact Or.inl hx
      · exact Or.inr (List.mem_cons_self _ _)
      · exact Or.inr (List.mem_cons_of_mem _ hx)
    · rintro (hx | hx)
      · exact Or.inl (Or.inl hx)
      · rcases List.mem_cons.mp hx with rfl | hx'
        · exact Or.inl (Or.inr rfl)
        · exact Or.inr hx'

theorem nodup_foldl_setAdd (hs : List PyStr) {s : List PyStr} (h : s.Nodup) :
    (hs.foldl setAdd s).Nodup := by
  induction hs generalizing s with
  | nil => exact h
  | cons x t ih =>
    rw [List.foldl_cons]
    exact ih (nodup_setAdd h x)

theorem mem_combinedHeadersOf {files : List (List PyStr)} {x : PyStr} :
    x ∈ combinedHeadersOf files ↔
      x ∈ files.flatten ∨ (files ≠ [] ∧ x = hostnameKey) := by
  suffices hgen : ∀ (fs : List (List PyStr)) (s : List PyStr),
      x ∈ fs.foldl combinedAddFile s ↔
        x ∈ s ∨ x ∈ fs.flatten ∨ (fs ≠ [] ∧ x = hostnameKey) by
    have := hgen files []
    unfold combinedHeadersOf
    rw [this]
    simp
  intro fs
  induction fs with
  | nil => simp
  | cons f fs ih =>
    intro s
    rw [List.foldl_cons, ih]
    have hadd : x ∈ combinedAddFile s f ↔ (x ∈ s ∨ x ∈ f) ∨ x = hostnameKey := by
      unfold combinedAddFile
      rw [mem_setAdd, mem_foldl_setAdd]
    rw [hadd]
    have hcons : ((f :: fs : List (List PyStr)) ≠ []) := List.cons_ne_nil f fs
    simp only [List.flatten_cons, List.mem_append, hcons, true_and, ne_eq]
    tauto

theorem nodup_combinedHeadersOf (files : List (List PyStr)) :
    (combinedHeadersOf files).Nodup := by
  suffices hgen : ∀ (fs : List (List PyStr)) (s : List PyStr),
      s.Nodup → (fs.foldl combinedAddFile s).Nodup from
    hgen files [] List.nodup_nil
  intro fs
  induction fs with
  | nil => exact fun s h => h
  | cons f fs ih =>
    intro s hs
    rw [List.foldl_cons]
    exact ih _ (nodup_setAdd (nodup_foldl_setAdd f hs) _)

/-- Claim C7: combined-mode output columns are `"hostname"` first, followed by
the union of all headers contributed by the group's files, sorted by the
code-point order and with `"hostname"` excluded from the sorted part; the
result depends only on the set of contributed headers (not on contribution
order), and the spec's example `{b, a}` then `{c}` gives
`["hostname", "a", "b", "c"]`. -/
theorem claim_C7 :
    (∀ files₁ files₂ : List (List PyStr),
      (∀ h, h ∈ files₁.flatten ↔ h ∈ files₂.flatten) →
      combinedFieldnames (combinedHeadersOf files₁) =
        combinedFieldnames (combinedHeadersOf files₂)) ∧
    combinedFieldnames (combinedHeadersOf [[pyS "b", pyS "a"], [pyS "c"]]) =
      [hostnameKey, pyS "a", pyS "b", pyS "c"] ∧
    (∀ files : List (List PyStr),
      List.Sorted (fun a b => strLe a b = true)
        (combinedFieldnames (combinedHeadersOf files)).tail ∧
      ∀ h, h ∈ (combinedFieldnames (combinedHeadersOf files)).tail ↔
        (h ∈ files.flatten ∧ h ≠ hostnameKey)) := by
  have hmemtail : ∀ (files : List (List PyStr)) (h : PyStr),
      h ∈ (combinedHeadersOf files).filter (fun h => h ≠ hostnameKey) ↔
        (h ∈ files.flatten ∧ h ≠ hostnameKey) := by
    intro files h
    rw [List.mem_filter, mem_combinedHeadersOf]
    constructor
    · rintro ⟨hf | ⟨_, rfl⟩, hne⟩
      · exact ⟨hf, by simpa using hne⟩
      · simp at hne
    · rintro ⟨hf, hne⟩
      exact ⟨Or.inl hf, by simpa using hne⟩
  refine ⟨?_, by decide, ?_⟩
  · intro files₁ files₂ hiff
    unfold combinedFieldnames
    congr 1
    apply sortStrings_congr
    rw [List.perm_ext_iff_of_nodup
      (List.Nodup.filter _ (nodup_combinedHeadersOf files₁))
      (List.Nodup.filter _ (nodup_combinedHeadersOf files₂))]
    intro a
    rw [hmemtail, hmemtail, hiff a]
  · intro files
    constructor
    · exact sortStrings_sorted _
    · intro h
      show h ∈ sortStrings ((combinedHeadersOf files).filter (fun h => h ≠ hostnameKey)) ↔ _
      rw [(sortStrings_perm _).mem_iff, hmemtail]

theorem claim_C7_witness :
    combinedFieldnames (combinedHeadersOf [[pyS "b", pyS "a"], [pyS "c"]]) =
      combinedFieldnames (combinedHeadersOf [[pyS "c"], [pyS "a"], [pyS "b"]]) :=
  claim_C7.1 [[pyS "b", pyS "a"], [pyS "c"]] [[pyS "c"], [pyS "a"], [pyS "b"]]
    (fun h => List.Perm.mem_iff (by decide))

/-! ### Record keys and header case collisions (claim C10) -/

theorem dictGet_cons (a : PyStr × PyStr) (d : List (PyStr × PyStr)) (k : PyStr) :
    dictGet (a :: d) k = if a.1 = k then some a.2 else dictGet d k := by
  by_cases h : a.1 = k
  · unfold dictGet
    rw [List.find?_cons_of_pos _ (by simp [h]), if_pos h]
    rfl
  · unfold dictGet
    rw [List.find?_cons_of_neg _ (by simp [h]), if_neg h]

theorem dictGet_map_update (d : List (PyStr × PyStr)) (k v : PyStr) :
    dictGet (d.map (fun kv => if kv.1 = k then (k, v) else kv)) k =
      if (dictGet d k).isSome then some v else none := by
  induction d with
  | nil => rfl
  | cons a d ih =>
    rw [List.map_cons, dictGet_cons, dictGet_cons]
    by_cases ha : a.1 = k
    · rw [if_pos ha]
      simp [ha]
    · simp only [if_neg ha]
      exact ih

theorem dictGet_map_update_ne (d : List (PyStr × PyStr)) (k v k' : PyStr) (h : k' ≠ k) :
    dictGet (d.map (fun kv => if kv.1 = k then (k, v) else kv)) k' = dictGet d k' := by
  induction d with
  | nil => rfl
  | cons a d ih =>
    rw [List.map_cons, dictGet_cons, dictGet_cons]
    by_cases ha : a.1 = k
    · simp only [if_pos ha]
      rw [if_neg (fun hh => h hh.symm), if_neg (fun hh => h ((ha.symm.trans hh).symm))]
      exact ih
    · simp only [if_neg ha]
      by_cases ha' : a.1 = k'
      · rw [if_pos ha', if_pos ha']
      · rw [if_neg ha', if_neg ha']
        exact ih

theorem dictGet_append_single (d : List (PyStr × PyStr)) (k v : PyStr)
    (h : dictGet d k = none) : dictGet (d ++ [(k, v)]) k = some v := by
  induction d with
  | nil =>
    show dictGet [(k, v)] k = some v
    rw [dictGet_cons, if_pos rfl]
  | cons a d ih =>
    rw [dictGet_cons] at h
    rw [List.cons_append, dictGet_cons]
    by_cases ha : a.1 = k
    · rw [if_pos ha] at h
      exact Option.noConfusion h
    · rw [if_neg ha] at h
      rw [if_neg ha]
      exact ih h

theorem dictGet_dictInsert_self (d : List (PyStr × PyStr)) (k v : PyStr) :
    dictGet (dictInsert d k v) k = some v := by
  unfold dictInsert
  by_cases h : (dictGet d k).isSome
  · rw [if_pos h, dictGet_map_update, if_pos h]
  · rw [if_neg h]
    exact dictGet_append_single d k v (Option.not_isSome_iff_eq_none.mp h)

theorem dictGet_dictInsert_ne (d : List (PyStr × PyStr)) (k v k' : PyStr) (h : k' ≠ k) :
    dictGet (dictInsert d k v) k' = dictGet d k' := by
  unfold dictInsert
  by_cases hs : (dictGet d k).isSome
  · rw [if_pos hs]
    exact dictGet_map_update_ne d k v k' h
  · rw [if_neg hs]
    unfold dictGet
    rw [List.find?_append]
    have hone : List.find? (fun kv => decide (kv.1 = k')) [(k, v)] = none := by
      rw [List.find?_cons_of_neg _ (by simp; exact fun hh => h hh.symm)]
      rfl
    rw [hone, Option.or_none]

theorem dictGet_dictInsert_of_eq (d : List (PyStr × PyStr)) (k k' v : PyStr)
    (h : k = k') : dictGet (dictInsert d k v) k' = some v :=
  h ▸ dictGet_dictInsert_self d k v

theorem foldl_dictInsert_lookup (pairs : List (PyStr × PyStr))
    (d : List (PyStr × PyStr)) (k : PyStr) :
    dictGet (pairs.foldl (fun d hv => dictInsert d (pyLower hv.1) hv.2) d) k =
      (((pairs.filter (fun hv => pyLower hv.1 = k)).getLast?).map Prod.snd).or
        (dictGet d k) := by
  induction pairs generalizing d with
  | nil => rfl
  | cons p ps ih =>
    rw [List.foldl_cons, List.filter_cons, ih]
    by_cases hP : pyLower p.1 = k
    · rw [if_pos (by simp [hP])]
      rcases hlast : (ps.filter (fun hv => decide (pyLower hv.1 = k))).getLast? with _ | hv
      · have hnil : ps.filter (fun hv => decide (pyLower hv.1 = k)) = [] := by
          rcases hfe : ps.filter (fun hv => decide (pyLower hv.1 = k)) with _ | ⟨a, l⟩
          · exact hfe
          · rw [hfe, List.getLast?_cons] at hlast
            exact Option.noConfusion hlast
        rw [hlast, hnil, List.getLast?_singleton, Option.map_none', Option.none_or,
          dictGet_dictInsert_of_eq d (pyLower p.1) k p.2 hP]
        rfl
      · rw [List.getLast?_cons, hlast]
        rfl
    · rw [if_neg (by simp [hP])]
      rcases hlast : (ps.filter (fun hv => decide (pyLower hv.1 = k))).getLast? with _ | hv
      · rw [hlast, Option.map_none', Option.none_or, Option.none_or,
          dictGet_dictInsert_ne d (pyLower p.1) p.2 k (fun hh => hP hh.symm)]
      · rw [hlast]
        rfl

/-- Claim C10: the record built from one engine row has exactly the
lower-cased headers as its key set, each key holding the value of the
right-most column whose lower-cased header equals it; two headers differing
only in case therefore collapse into a single key holding the right-most
column's value, silently dropping the other column, as the concrete
`["Name", "NAME"]` example shows. -/
theorem claim_C10 (headers row : List PyStr) (hlen : row.length = headers.length) :
    (∀ k, (dictGet (recordOfRow headers row) k).isSome ↔ k ∈ headers.map pyLower) ∧
    (∀ k, dictGet (recordOfRow headers row) k =
      (((headers.zip row).filter (fun hv => pyLower hv.1 = k)).getLast?).map Prod.snd) ∧
    recordOfRow [pyS "Name", pyS "NAME"] [pyS "x", pyS "y"] = [(pyS "name", pyS "y")] := by
  have hchar : ∀ k, dictGet (recordOfRow headers row) k =
      (((headers.zip row).filter (fun hv => pyLower hv.1 = k)).getLast?).map Prod.snd := by
    intro k
    unfold recordOfRow
    rw [foldl_dictInsert_lookup]
    show Option.or _ none = _
    rw [Option.or_none]
  refine ⟨?_, hchar, by decide⟩
  intro k
  rw [hchar k]
  rw [show (((((headers.zip row).filter (fun hv => pyLower hv.1 = k)).getLast?).map
    Prod.snd).isSome) = (((headers.zip row).filter
      (fun hv => pyLower hv.1 = k)).getLast?).isSome from Option.isSome_map' ..]
  rw [List.getLast?_isSome]
  rw [Ne, List.filter_eq_nil_iff]
  push_neg
  have hfst : (headers.zip row).map Prod.fst = headers :=
    List.map_fst_zip headers row (le_of_eq hlen.symm)
  constructor
  · rintro ⟨hv, hmem, hP⟩
    have hh : hv.1 ∈ headers := by
      rw [← hfst]
      exact List.mem_map_of_mem Prod.fst hmem
    exact List.mem_map.mpr ⟨hv.1, hh, by simpa using hP⟩
  · intro hk
    rcases List.mem_map.mp hk with ⟨h, hh, hlow⟩
    rw [← hfst] at hh
    rcases List.mem_map.mp hh with ⟨hv, hvmem, hveq⟩
    exact ⟨hv, hvmem, by simp [hveq, hlow]⟩

theorem claim_C10_witness :
    dictGet (recordOfRow [pyS "Name", pyS "NAME"] [pyS "x", pyS "y"]) (pyS "name") =
      ((([pyS "Name", pyS "NAME"].zip [pyS "x", pyS "y"]).filter
        (fun hv => pyLower hv.1 = pyS "name")).getLast?).map Prod.snd :=
  (claim_C10 [pyS "Name", pyS "NAME"] [pyS "x", pyS "y"] (by decide)).2.1 (pyS "name")

end TextToColumn
